import Mathlib

/-!
Shallow embedding of `src/01-BayesianRanking.ipynb`: the class `Coin`
(Thompson Sampling over Bernoulli/Beta conjugate pairs) and its trial
driver `Coin.simulate`.

The notebook draws randomness from numpy's seeded global generator
(`np.random.rand`, `np.random.beta`).  That generator is modelled as an
explicit stream of rational draws, consumed one value per primitive call:
fixing the stream plays the role of fixing the seed.  A stream is `Valid`
when every value it can emit lies in `[0, 1]`, the range both primitives
guarantee.  Python's bool arithmetic (`alpha += x`, `beta += 1 - x`) is
translated through an explicit `Bool → ℤ` coercion, and the `NameError`
raised when `maxcoin` is never bound (empty pool) is modelled as `none`.
-/

/-- One coin/arm of `01-BayesianRanking.ipynb`: `p` is the hidden true
probability, `alpha`/`beta` the Beta posterior parameters
(`Coin.__init__` sets the flat prior `alpha = 1, beta = 1`). -/
structure Coin where
  p : ℚ
  alpha : ℤ
  beta : ℤ
deriving DecidableEq

/-- `Coin.__init__(p)`: flat posterior `alpha = 1`, `beta = 1`. -/
def Coin.init (p : ℚ) : Coin := ⟨p, 1, 1⟩

/-- The global random generator: a stream of draw results and the position
of the next draw. -/
structure RandSrc where
  stream : ℕ → ℚ
  pos : ℕ

/-- Consume one draw from the generator. -/
def RandSrc.next (r : RandSrc) : ℚ × RandSrc := (r.stream r.pos, ⟨r.stream, r.pos + 1⟩)

/-- Every value the generator can emit lies in `[0, 1]`, as both
`np.random.rand` and `np.random.beta` guarantee. -/
def RandSrc.Valid (r : RandSrc) : Prop := ∀ i, 0 ≤ r.stream i ∧ r.stream i ≤ 1

/-- Python `int(b)` of a `bool`, as used by `alpha += x` / `beta += 1 - x`. -/
def btoi (b : Bool) : ℤ := if b then 1 else 0

/-- `Coin.toss`: `np.random.rand() < self.p`. -/
def Coin.toss (c : Coin) (r : RandSrc) : Bool × RandSrc :=
  (decide (r.next.1 < c.p), r.next.2)

/-- `Coin.sample`: one draw from `Beta(alpha, beta)`.  The drawn value is
the next value of the random stream; the coin itself is returned unchanged
(the method does not assign to `self`). -/
def Coin.sample (c : Coin) (r : RandSrc) : ℚ × Coin × RandSrc :=
  (r.next.1, c, r.next.2)

/-- `Coin.update(x)`: `if x: self.alpha += x  else: self.beta += 1 - x`,
with Python bool-to-int arithmetic. -/
def Coin.update (c : Coin) (x : Bool) : Coin :=
  if x then { c with alpha := c.alpha + btoi x }
  else { c with beta := c.beta + (1 - btoi x) }

/-- The sampling pass of one trial of `Coin.simulate`:
`for coin in coins: sample = coin.sample(); samples.append(sample)`. -/
def drawSamples : List Coin → RandSrc → List ℚ × RandSrc
  | [], r => ([], r)
  | c :: cs, r =>
    let v := (c.sample r).1
    let r1 := (c.sample r).2.2
    let rest := drawSamples cs r1
    (v :: rest.1, rest.2)

/-- The max-tracking of the inner loop of `Coin.simulate`: walk the sampled
values in order, keeping `maxsample` (started at the sentinel `-1`) and the
index of the coin currently bound to `maxcoin` (`none` while no sample has
beaten the sentinel; `if sample > maxsample` is a strict comparison, so a
later equal sample never replaces the bound coin). -/
def selLoop : List ℚ → ℕ → ℚ → Option ℕ → ℚ × Option ℕ
  | [], _, maxsample, maxcoin => (maxsample, maxcoin)
  | s :: rest, i, maxsample, maxcoin =>
    if maxsample < s then selLoop rest (i + 1) s (some i)
    else selLoop rest (i + 1) maxsample maxcoin

/-- The whole selection pass over a trial's samples, started at
`maxsample = -1` with `maxcoin` unbound. -/
def runMax (samples : List ℚ) : ℚ × Option ℕ := selLoop samples 0 (-1) none

/-- The trial indices at which `Coin.simulate` plots the posteriors and
prompts `Continue?`. -/
def checkpoints : List ℕ := [5, 10, 20, 50, 100, 200, 500, 1000, 2000, 5000, 9999]

/-- One iteration of the trial loop of `Coin.simulate`: sample every coin,
bind `maxcoin`, then `maxcoin.update(maxcoin.toss())`.  When no sample beat
the sentinel (empty pool) `maxcoin` is unbound and the update step raises
`NameError`, modelled as `none`.  On success: the updated pool, the record
`(selected index, outcome)` and the advanced random source. -/
def trial (coins : List Coin) (r : RandSrc) : Option (List Coin × (ℕ × Bool) × RandSrc) :=
  let sr := drawSamples coins r
  match (runMax sr.1).2 with
  | none => none
  | some i =>
    let c := coins.getD i (Coin.init 0)
    let t := c.toss sr.2
    some (coins.set i (c.update t.1), (i, t.1), t.2)

/-- The trial loop of `Coin.simulate` over the remaining trial indices
(`for i in range(n)`): run `trial` at each index and, when the index is a
checkpoint and the `Continue?` prompt is answered `'n'`
(`answers i = false`), break out of the loop after that trial's update.
Returns the final pool, the per-trial records `(selected index, outcome)`
and the final random source; `none` propagates the `NameError` of an
unbound `maxcoin`. -/
def simLoop (answers : ℕ → Bool) :
    List ℕ → List Coin → RandSrc → Option (List Coin × List (ℕ × Bool) × RandSrc)
  | [], coins, r => some (coins, [], r)
  | i :: rest, coins, r =>
    match trial coins r with
    | none => none
    | some (coins1, tr, r1) =>
      if i ∈ checkpoints ∧ answers i = false then some (coins1, [tr], r1)
      else
        match simLoop answers rest coins1 r1 with
        | none => none
        | some (cf, recs, rf) => some (cf, tr :: recs, rf)

/-- `Coin.simulate(n)`: build the pool
`coins = [Coin(true_p) for true_p in self.p]` and run the trial loop over
`range(n)` — empty when `n ≤ 0`, exactly as Python's `range`. -/
def simulate (p : List ℚ) (n : ℤ) (answers : ℕ → Bool) (r : RandSrc) :
    Option (List Coin × List (ℕ × Bool) × RandSrc) :=
  simLoop answers (List.range n.toNat) (p.map Coin.init) r

/-- Modelled from the spec: `posterior_mean() -> alpha / (alpha + beta)`
(§4.1); the notebook plots the posterior density instead of exposing a
mean. -/
def Coin.mean (c : Coin) : ℚ := (c.alpha : ℚ) / ((c.alpha : ℚ) + (c.beta : ℚ))

/-- Modelled from the spec: the ordering of the RankingExtractor of §4.5,
which the repository does not implement (the notebook renders plots
instead): descending posterior mean, ties broken by ascending arm id. -/
def rankRel (a b : ℕ × Coin) : Prop :=
  b.2.mean < a.2.mean ∨ (a.2.mean = b.2.mean ∧ a.1 ≤ b.1)

instance : DecidableRel rankRel := fun a b => by
  unfold rankRel
  exact inferInstance

/-- Modelled from the spec: `rank(pool)` of §4.5, a pure function sorting
the id-tagged arms by `rankRel` with a stable sort. -/
def rank (coins : List Coin) : List (ℕ × Coin) :=
  (coins.enum).insertionSort rankRel

/-- The sequence of selected arm indices of a completed run. -/
def selectedArms (res : Option (List Coin × List (ℕ × Bool) × RandSrc)) :
    Option (List ℕ) :=
  res.map fun t => t.2.1.map Prod.fst

/-- The final ranking of a completed run. -/
def finalRanking (res : Option (List Coin × List (ℕ × Bool) × RandSrc)) :
    Option (List (ℕ × Coin)) :=
  res.map fun t => rank t.1

/-- The number of trial records in which arm `idx` was selected and the
outcome was `b`. -/
def countRec (recs : List (ℕ × Bool)) (idx : ℕ) (b : Bool) : ℕ :=
  recs.countP fun t => decide (t.1 = idx ∧ t.2 = b)

/-- The number of trial records in which arm `idx` was selected. -/
def countSel (recs : List (ℕ × Bool)) (idx : ℕ) : ℕ :=
  recs.countP fun t => decide (t.1 = idx)

/-- Total pseudo-count of observations in a pool:
`Σ over arms ((alpha - 1) + (beta - 1))`. -/
def potential (coins : List Coin) : ℤ :=
  (coins.map fun c => (c.alpha - 1) + (c.beta - 1)).sum

/-- A concrete random source: every draw is `1` (a value both primitives
can emit, so the stream is `Valid`). -/
def oneRand : RandSrc := ⟨fun _ => 1, 0⟩

theorem oneRand_valid : oneRand.Valid := fun _ => by
  constructor <;> norm_num [oneRand]

theorem update_alpha (c : Coin) (x : Bool) :
    (c.update x).alpha = c.alpha + (if x = true then 1 else 0) := by
  cases x <;> simp [Coin.update, btoi]

theorem update_beta (c : Coin) (x : Bool) :
    (c.update x).beta = c.beta + (if x = false then 1 else 0) := by
  cases x <;> simp [Coin.update, btoi]

theorem update_p (c : Coin) (x : Bool) : (c.update x).p = c.p := by
  cases x <;> simp [Coin.update]

theorem valid_of_stream_eq {r1 r2 : RandSrc} (h : r2.stream = r1.stream)
    (hv : r1.Valid) : r2.Valid := by
  intro i
  rw [h]
  exact hv i

theorem getD_set_self {α : Type} (l : List α) {j : ℕ} (x : α) (d : α)
    (h : j < l.length) : (l.set j x).getD j d = x := by
  rw [List.getD_eq_getElem?_getD, List.getElem?_set_self h]
  rfl

theorem getD_set_ne {α : Type} (l : List α) {i j : ℕ} (x : α) (d : α)
    (h : j ≠ i) : (l.set j x).getD i d = l.getD i d := by
  rw [List.getD_eq_getElem?_getD, List.getElem?_set_ne h,
    ← List.getD_eq_getElem?_getD]

theorem getD_mem {α : Type} (l : List α) (i : ℕ) (d : α) (h : i < l.length) :
    l.getD i d ∈ l := by
  rw [List.getD_eq_getElem?_getD, List.getElem?_eq_getElem h, Option.getD_some]
  exact l.getElem_mem h

theorem drawSamples_length (coins : List Coin) :
    ∀ r : RandSrc, (drawSamples coins r).1.length = coins.length := by
  induction coins with
  | nil => intro r; rfl
  | cons c cs ih => intro r; simp [drawSamples, ih]

theorem drawSamples_stream (coins : List Coin) :
    ∀ r : RandSrc, (drawSamples coins r).2.stream = r.stream ∧
      (drawSamples coins r).2.pos = r.pos + coins.length := by
  induction coins with
  | nil => intro r; exact ⟨rfl, rfl⟩
  | cons c cs ih =>
    intro r
    refine ⟨(ih ((c.sample r).2.2)).1, ?_⟩
    have h := (ih ((c.sample r).2.2)).2
    show (drawSamples cs (c.sample r).2.2).2.pos = r.pos + (cs.length + 1)
    rw [h]
    show r.pos + 1 + cs.length = r.pos + (cs.length + 1)
    omega

theorem drawSamples_mem_valid (coins : List Coin) :
    ∀ r : RandSrc, r.Valid → ∀ v ∈ (drawSamples coins r).1, 0 ≤ v ∧ v ≤ 1 := by
  induction coins with
  | nil => intro r _ v hv; simp [drawSamples] at hv
  | cons c cs ih =>
    intro r hr v hv
    simp only [drawSamples, List.mem_cons] at hv
    rcases hv with rfl | hv
    · exact hr r.pos
    · exact ih ((c.sample r).2.2) (valid_of_stream_eq rfl hr) v hv

theorem selLoop_spec (samples : List ℚ) :
    ∀ (i : ℕ) (maxs : ℚ) (maxc : Option ℕ),
      (selLoop samples i maxs maxc = (maxs, maxc) ∧
        ∀ k, k < samples.length → samples.getD k 0 ≤ maxs) ∨
      (∃ k, k < samples.length ∧
        (selLoop samples i maxs maxc).1 = samples.getD k 0 ∧
        (selLoop samples i maxs maxc).2 = some (i + k) ∧
        maxs < samples.getD k 0 ∧
        (∀ j, j < samples.length → samples.getD j 0 ≤ samples.getD k 0) ∧
        ∀ j, j < k → samples.getD j 0 < samples.getD k 0) := by
  induction samples with
  | nil =>
    intro i maxs maxc
    left
    exact ⟨rfl, fun k hk => absurd hk (by simp)⟩
  | cons s rest ih =>
    intro i maxs maxc
    by_cases h : maxs < s
    · rcases ih (i + 1) s (some i) with ⟨heq, hbound⟩ | ⟨k, hk, h1, h2, h3, h4, h5⟩
      · right
        refine ⟨0, by simp, ?_, ?_, ?_, ?_, ?_⟩
        · show (selLoop (s :: rest) i maxs maxc).1 = s
          simp [selLoop, h, heq]
        · show (selLoop (s :: rest) i maxs maxc).2 = some (i + 0)
          simp [selLoop, h, heq]
        · simpa using h
        · intro j hj
          cases j with
          | zero => simp
          | succ j =>
            simp only [List.getD_cons_succ, List.getD_cons_zero]
            exact hbound j (by simpa using hj)
        · intro j hj
          exact absurd hj (by omega)
      · right
        refine ⟨k + 1, by simpa using hk, ?_, ?_, ?_, ?_, ?_⟩
        · show (selLoop (s :: rest) i maxs maxc).1 = rest.getD k 0
          simpa [selLoop, h] using h1
        · show (selLoop (s :: rest) i maxs maxc).2 = some (i + (k + 1))
          have : i + 1 + k = i + (k + 1) := by omega
          simpa [selLoop, h, this] using h2
        · simp only [List.getD_cons_succ]
          exact lt_trans h h3
        · intro j hj
          cases j with
          | zero => simpa using le_of_lt h3
          | succ j =>
            simp only [List.getD_cons_succ]
            exact h4 j (by simpa using hj)
        · intro j hj
          cases j with
          | zero => simpa using h3
          | succ j =>
            simp only [List.getD_cons_succ]
            exact h5 j (by omega)
    · rcases ih (i + 1) maxs maxc with ⟨heq, hbound⟩ | ⟨k, hk, h1, h2, h3, h4, h5⟩
      · left
        constructor
        · show selLoop (s :: rest) i maxs maxc = (maxs, maxc)
          simp [selLoop, h, heq]
        · intro k hk
          cases k with
          | zero => simpa using le_of_not_lt h
          | succ k =>
            simp only [List.getD_cons_succ]
            exact hbound k (by simpa using hk)
      · right
        refine ⟨k + 1, by simpa using hk, ?_, ?_, ?_, ?_, ?_⟩
        · show (selLoop (s :: rest) i maxs maxc).1 = rest.getD k 0
          simpa [selLoop, h] using h1
        · show (selLoop (s :: rest) i maxs maxc).2 = some (i + (k + 1))
          have : i + 1 + k = i + (k + 1) := by omega
          simpa [selLoop, h, this] using h2
        · simp only [List.getD_cons_succ]
          exact h3
        · intro j hj
          cases j with
          | zero =>
            simp only [List.getD_cons_succ, List.getD_cons_zero]
            exact le_of_lt (lt_of_le_of_lt (le_of_not_lt h) h3)
          | succ j =>
            simp only [List.getD_cons_succ]
            exact h4 j (by simpa using hj)
        · intro j hj
          cases j with
          | zero =>
            simp only [List.getD_cons_succ, List.getD_cons_zero]
            exact lt_of_le_of_lt (le_of_not_lt h) h3
          | succ j =>
            simp only [List.getD_cons_succ]
            exact h5 j (by omega)

theorem runMax_some_lt {samples : List ℚ} {i : ℕ}
    (h : (runMax samples).2 = some i) : i < samples.length := by
  rcases selLoop_spec samples 0 (-1) none with ⟨heq, _⟩ | ⟨k, hk, _, h2, _, _, _⟩
  · rw [runMax, heq] at h
    simp at h
  · rw [runMax] at h
    rw [h2] at h
    simp at h
    omega

theorem runMax_spec (samples : List ℚ) (hne : samples ≠ [])
    (hpos : ∀ v ∈ samples, (0 : ℚ) ≤ v) :
    ∃ k, k < samples.length ∧ (runMax samples).2 = some k ∧
      (runMax samples).1 = samples.getD k 0 ∧
      (∀ j, j < samples.length → samples.getD j 0 ≤ samples.getD k 0) ∧
      ∀ j, j < k → samples.getD j 0 < samples.getD k 0 := by
  rcases selLoop_spec samples 0 (-1) none with ⟨_, hbound⟩ | ⟨k, hk, h1, h2, _, h4, h5⟩
  · exfalso
    have hlen : 0 < samples.length := List.length_pos.mpr hne
    have hmem : samples.getD 0 0 ∈ samples := getD_mem samples 0 0 hlen
    have := le_trans (hpos _ hmem) (hbound 0 hlen)
    norm_num at this
  · refine ⟨k, hk, ?_, h1, h4, h5⟩
    rw [runMax, h2]
    simp

theorem trial_nil (r : RandSrc) : trial [] r = none := rfl

theorem trial_shape {coins : List Coin} {r : RandSrc}
    {res : List Coin × (ℕ × Bool) × RandSrc} (h : trial coins r = some res) :
    ∃ j out r2, j < coins.length ∧
      res = (coins.set j ((coins.getD j (Coin.init 0)).update out), (j, out), r2) ∧
      r2.stream = r.stream := by
  rw [show trial coins r
      = match (runMax (drawSamples coins r).1).2 with
        | none => none
        | some i =>
          some (coins.set i ((coins.getD i (Coin.init 0)).update
              (((coins.getD i (Coin.init 0)).toss (drawSamples coins r).2).1)),
            (i, ((coins.getD i (Coin.init 0)).toss (drawSamples coins r).2).1),
            ((coins.getD i (Coin.init 0)).toss (drawSamples coins r).2).2)
    from rfl] at h
  split at h
  · exact absurd h (by simp)
  · next i heq =>
    refine ⟨i, ((coins.getD i (Coin.init 0)).toss (drawSamples coins r).2).1,
      ((coins.getD i (Coin.init 0)).toss (drawSamples coins r).2).2, ?_, ?_, ?_⟩
    · have := runMax_some_lt heq
      rwa [drawSamples_length coins r] at this
    · exact (Option.some.inj h).symm
    · show (drawSamples coins r).2.stream = r.stream
      exact (drawSamples_stream coins r).1

theorem trial_isSome (coins : List Coin) (r : RandSrc) (hne : coins ≠ [])
    (hv : r.Valid) : (trial coins r).isSome = true := by
  have hlen : (drawSamples coins r).1.length = coins.length := drawSamples_length coins r
  have hne2 : (drawSamples coins r).1 ≠ [] := by
    intro hc
    rw [hc] at hlen
    exact hne (List.length_eq_zero.mp hlen.symm)
  have hpos : ∀ v ∈ (drawSamples coins r).1, (0 : ℚ) ≤ v :=
    fun v hv2 => (drawSamples_mem_valid coins r hv v hv2).1
  obtain ⟨k, _, h2, _, _, _⟩ := runMax_spec (drawSamples coins r).1 hne2 hpos
  show (match (runMax (drawSamples coins r).1).2 with
    | none => none
    | some i =>
      some (coins.set i ((coins.getD i (Coin.init 0)).update
          (((coins.getD i (Coin.init 0)).toss (drawSamples coins r).2).1)),
        (i, ((coins.getD i (Coin.init 0)).toss (drawSamples coins r).2).1),
        ((coins.getD i (Coin.init 0)).toss (drawSamples coins r).2).2)).isSome = true
  rw [h2]
  rfl

theorem simLoop_nil (answers : ℕ → Bool) (coins : List Coin) (r : RandSrc) :
    simLoop answers [] coins r = some (coins, [], r) := rfl

theorem simLoop_cons {answers : ℕ → Bool} {i : ℕ} {rest : List ℕ}
    {coins : List Coin} {r : RandSrc} {res}
    (h : simLoop answers (i :: rest) coins r = some res) :
    ∃ coins1 tr r1, trial coins r = some (coins1, tr, r1) ∧
      (((i ∈ checkpoints ∧ answers i = false) ∧ res = (coins1, [tr], r1)) ∨
        (¬(i ∈ checkpoints ∧ answers i = false) ∧
          ∃ cf recs rf, simLoop answers rest coins1 r1 = some (cf, recs, rf) ∧
            res = (cf, tr :: recs, rf))) := by
  unfold simLoop at h
  split at h
  · exact absurd h (by simp)
  · next coins1 tr r1 heq =>
    refine ⟨coins1, tr, r1, heq, ?_⟩
    split at h
    · next hbr => exact Or.inl ⟨hbr, (Option.some.inj h).symm⟩
    · next hbr =>
      refine Or.inr ⟨hbr, ?_⟩
      split at h
      · exact absurd h (by simp)
      · next cf recs rf heq2 => exact ⟨cf, recs, rf, heq2, (Option.some.inj h).symm⟩

theorem countRec_nil (idx : ℕ) (b : Bool) : countRec [] idx b = 0 := rfl

theorem countRec_cons (t : ℕ × Bool) (recs : List (ℕ × Bool)) (idx : ℕ) (b : Bool) :
    countRec (t :: recs) idx b
      = countRec recs idx b + if t.1 = idx ∧ t.2 = b then 1 else 0 := by
  simp only [countRec, List.countP_cons, decide_eq_true_eq]

theorem countSel_cons (t : ℕ × Bool) (recs : List (ℕ × Bool)) (idx : ℕ) :
    countSel (t :: recs) idx = countSel recs idx + if t.1 = idx then 1 else 0 := by
  simp only [countSel, List.countP_cons, decide_eq_true_eq]

theorem countRec_split (recs : List (ℕ × Bool)) (idx : ℕ) :
    countRec recs idx true + countRec recs idx false = countSel recs idx := by
  induction recs with
  | nil => rfl
  | cons t ts ih =>
    rw [countRec_cons, countRec_cons, countSel_cons]
    by_cases h1 : t.1 = idx
    · cases h2 : t.2 <;> simp [h1, h2] <;> omega
    · simp [h1]
      omega

theorem set_update_getD (coins : List Coin) {j : ℕ} (out : Bool)
    (hj : j < coins.length) (idx : ℕ) :
    (((coins.set j ((coins.getD j (Coin.init 0)).update out)).getD idx
        (Coin.init 0)).alpha
      = (coins.getD idx (Coin.init 0)).alpha
        + (if j = idx ∧ out = true then 1 else 0)) ∧
    (((coins.set j ((coins.getD j (Coin.init 0)).update out)).getD idx
        (Coin.init 0)).beta
      = (coins.getD idx (Coin.init 0)).beta
        + (if j = idx ∧ out = false then 1 else 0)) ∧
    ((coins.set j ((coins.getD j (Coin.init 0)).update out)).getD idx
        (Coin.init 0)).p
      = (coins.getD idx (Coin.init 0)).p := by
  by_cases hij : j = idx
  · subst hij
    rw [getD_set_self coins _ _ hj]
    refine ⟨?_, ?_, update_p _ _⟩
    · rw [update_alpha]
      cases out <;> simp
    · rw [update_beta]
      cases out <;> simp
  · rw [getD_set_ne coins _ _ hij]
    simp [hij]


theorem simLoop_posterior (answers : ℕ → Bool) :
    ∀ (idxs : List ℕ) (coins : List Coin) (r : RandSrc) cf recs rf,
      simLoop answers idxs coins r = some (cf, recs, rf) →
      cf.length = coins.length ∧
      (∀ t ∈ recs, t.1 < coins.length) ∧
      ∀ idx,
        (cf.getD idx (Coin.init 0)).alpha
          = (coins.getD idx (Coin.init 0)).alpha + (countRec recs idx true : ℤ) ∧
        (cf.getD idx (Coin.init 0)).beta
          = (coins.getD idx (Coin.init 0)).beta + (countRec recs idx false : ℤ) ∧
        (cf.getD idx (Coin.init 0)).p = (coins.getD idx (Coin.init 0)).p := by
  intro idxs
  induction idxs with
  | nil =>
    intro coins r cf recs rf h
    rw [simLoop_nil] at h
    injection h with h
    simp only [Prod.mk.injEq] at h
    obtain ⟨h1, h2, h3⟩ := h
    subst h1 h2 h3
    refine ⟨rfl, by simp, ?_⟩
    intro idx
    simp [countRec_nil]
  | cons i rest ih =>
    intro coins r cf recs rf h
    obtain ⟨coins1, tr, r1, htr, hcase⟩ := simLoop_cons h
    obtain ⟨j, out, r2, hj, hres, _⟩ := trial_shape htr
    simp only [Prod.mk.injEq] at hres
    obtain ⟨hc1, hc2, hc3⟩ := hres
    subst hc1 hc2 hc3
    have hlen1 : (coins.set j ((coins.getD j (Coin.init 0)).update out)).length
        = coins.length := List.length_set ..
    rcases hcase with ⟨_, hres2⟩ | ⟨_, cf0, recs0, rf0, hloop, hres2⟩
    · simp only [Prod.mk.injEq] at hres2
      obtain ⟨g1, g2, g3⟩ := hres2
      subst g1 g2 g3
      refine ⟨hlen1, ?_, ?_⟩
      · intro t ht
        simp at ht
        subst ht
        exact hj
      · intro idx
        obtain ⟨s1, s2, s3⟩ := set_update_getD coins out hj idx
        rw [s1, s2, s3]
        rw [countRec_cons, countRec_cons]
        refine ⟨?_, ?_, rfl⟩
        · by_cases hc : (j, out).1 = idx ∧ (j, out).2 = true <;> simp at hc <;>
            simp [hc, countRec_nil]
        · by_cases hc : (j, out).1 = idx ∧ (j, out).2 = false <;> simp at hc <;>
            simp [hc, countRec_nil]
    · simp only [Prod.mk.injEq] at hres2
      obtain ⟨g1, g2, g3⟩ := hres2
      subst g1 g2 g3
      obtain ⟨ihlen, ihmem, ihstats⟩ := ih _ _ _ _ _ hloop
      refine ⟨ihlen.trans hlen1, ?_, ?_⟩
      · intro t ht
        simp at ht
        rcases ht with rfl | ht
        · exact hj
        · have := ihmem t ht
          omega
      · intro idx
        obtain ⟨s1, s2, s3⟩ := set_update_getD coins out hj idx
        obtain ⟨i1, i2, i3⟩ := ihstats idx
        rw [i1, i2, i3, s1, s2, s3]
        rw [countRec_cons, countRec_cons]
        refine ⟨?_, ?_, rfl⟩
        · by_cases hc : (j, out).1 = idx ∧ (j, out).2 = true <;> simp at hc <;>
            simp [hc] <;> ring
        · by_cases hc : (j, out).1 = idx ∧ (j, out).2 = false <;> simp at hc <;>
            simp [hc] <;> ring

theorem potential_cons (c : Coin) (cs : List Coin) :
    potential (c :: cs) = ((c.alpha - 1) + (c.beta - 1)) + potential cs := by
  simp [potential]

theorem potential_set (coins : List Coin) :
    ∀ (j : ℕ) (x : Coin), j < coins.length →
      potential (coins.set j x)
        = potential coins + ((x.alpha + x.beta)
            - ((coins.getD j (Coin.init 0)).alpha + (coins.getD j (Coin.init 0)).beta)) := by
  induction coins with
  | nil => intro j x h; simp at h
  | cons c cs ih =>
    intro j x h
    cases j with
    | zero =>
      simp only [List.set_cons_zero, List.getD_cons_zero]
      rw [potential_cons, potential_cons]
      ring
    | succ j =>
      simp only [List.set_cons_succ, List.getD_cons_succ]
      rw [potential_cons, potential_cons, ih j x (by simpa using h)]
      ring

theorem update_total (c : Coin) (out : Bool) :
    (c.update out).alpha + (c.update out).beta = c.alpha + c.beta + 1 := by
  cases out <;> simp [Coin.update, btoi] <;> ring

theorem trial_potential {coins : List Coin} {r : RandSrc} {coins1 tr r1}
    (h : trial coins r = some (coins1, tr, r1)) :
    potential coins1 = potential coins + 1 := by
  obtain ⟨j, out, r2, hj, hres, _⟩ := trial_shape h
  simp only [Prod.mk.injEq] at hres
  obtain ⟨hc1, _, _⟩ := hres
  subst hc1
  rw [potential_set coins j _ hj, update_total]
  ring

theorem simLoop_potential (answers : ℕ → Bool) :
    ∀ (idxs : List ℕ) (coins : List Coin) (r : RandSrc) cf recs rf,
      simLoop answers idxs coins r = some (cf, recs, rf) →
      potential cf = potential coins + recs.length := by
  intro idxs
  induction idxs with
  | nil =>
    intro coins r cf recs rf h
    rw [simLoop_nil] at h
    injection h with h
    simp only [Prod.mk.injEq] at h
    obtain ⟨h1, h2, h3⟩ := h
    subst h1 h2 h3
    simp
  | cons i rest ih =>
    intro coins r cf recs rf h
    obtain ⟨coins1, tr, r1, htr, hcase⟩ := simLoop_cons h
    have hstep := trial_potential htr
    rcases hcase with ⟨_, hres2⟩ | ⟨_, cf0, recs0, rf0, hloop, hres2⟩
    · simp only [Prod.mk.injEq] at hres2
      obtain ⟨g1, g2, g3⟩ := hres2
      subst g1 g2 g3
      rw [hstep]
      simp
    · simp only [Prod.mk.injEq] at hres2
      obtain ⟨g1, g2, g3⟩ := hres2
      subst g1 g2 g3
      rw [ih _ _ _ _ _ hloop, hstep]
      simp only [List.length_cons]
      push_cast
      ring

theorem update_bounds (c : Coin) (x : Bool) (ha : 1 ≤ c.alpha) (hb : 1 ≤ c.beta) :
    1 ≤ (c.update x).alpha ∧ 1 ≤ (c.update x).beta := by
  rw [update_alpha, update_beta]
  constructor <;> cases x <;> simp <;> omega

theorem simLoop_bounds (answers : ℕ → Bool) :
    ∀ (idxs : List ℕ) (coins : List Coin) (r : RandSrc) cf recs rf,
      simLoop answers idxs coins r = some (cf, recs, rf) →
      (∀ c ∈ coins, 1 ≤ c.alpha ∧ 1 ≤ c.beta) →
      ∀ c ∈ cf, 1 ≤ c.alpha ∧ 1 ≤ c.beta := by
  intro idxs
  induction idxs with
  | nil =>
    intro coins r cf recs rf h hc
    rw [simLoop_nil] at h
    injection h with h
    simp only [Prod.mk.injEq] at h
    obtain ⟨h1, _, _⟩ := h
    subst h1
    exact hc
  | cons i rest ih =>
    intro coins r cf recs rf h hc
    obtain ⟨coins1, tr, r1, htr, hcase⟩ := simLoop_cons h
    obtain ⟨j, out, r2, hj, hres, _⟩ := trial_shape htr
    simp only [Prod.mk.injEq] at hres
    obtain ⟨hc1, _, _⟩ := hres
    subst hc1
    have hstep : ∀ c ∈ coins.set j ((coins.getD j (Coin.init 0)).update out),
        1 ≤ c.alpha ∧ 1 ≤ c.beta := by
      intro c hcm
      rcases List.mem_or_eq_of_mem_set hcm with hcm | rfl
      · exact hc c hcm
      · have hmem := getD_mem coins j (Coin.init 0) hj
        obtain ⟨h1, h2⟩ := hc _ hmem
        exact update_bounds _ out h1 h2
    rcases hcase with ⟨_, hres2⟩ | ⟨_, cf0, recs0, rf0, hloop, hres2⟩
    · simp only [Prod.mk.injEq] at hres2
      obtain ⟨g1, _, _⟩ := hres2
      subst g1
      exact hstep
    · simp only [Prod.mk.injEq] at hres2
      obtain ⟨g1, _, _⟩ := hres2
      subst g1
      exact ih _ _ _ _ _ hloop hstep

theorem simLoop_isSome (answers : ℕ → Bool) :
    ∀ (idxs : List ℕ) (coins : List Coin) (r : RandSrc), coins ≠ [] → r.Valid →
      (simLoop answers idxs coins r).isSome = true := by
  intro idxs
  induction idxs with
  | nil => intro coins r _ _; rfl
  | cons i rest ih =>
    intro coins r hne hv
    obtain ⟨res, htr⟩ := Option.isSome_iff_exists.mp (trial_isSome coins r hne hv)
    obtain ⟨coins1, tr, r1⟩ := res
    obtain ⟨j, out, r2, hj, hres, hstr⟩ := trial_shape htr
    simp only [Prod.mk.injEq] at hres
    obtain ⟨hc1, _, hc3⟩ := hres
    subst hc1 hc3
    have hne1 : coins.set j ((coins.getD j (Coin.init 0)).update out) ≠ [] := by
      intro hcon
      have := congrArg List.length hcon
      rw [List.length_set] at this
      exact hne (List.length_eq_zero.mp this)
    have hv1 : RandSrc.Valid r1 := valid_of_stream_eq hstr hv
    show (match trial coins r with
      | none => none
      | some (coins1, tr, r1) =>
        if i ∈ checkpoints ∧ answers i = false then some (coins1, [tr], r1)
        else
          match simLoop answers rest coins1 r1 with
          | none => none
          | some (cf, recs, rf) => some (cf, tr :: recs, rf)).isSome = true
    rw [htr]
    by_cases hbr : i ∈ checkpoints ∧ answers i = false
    · simp [hbr]
    · simp only [hbr, if_false]
      obtain ⟨⟨cf, recs, rf⟩, hloop⟩ :=
        Option.isSome_iff_exists.mp (ih _ r1 hne1 hv1)
      rw [hloop]
      rfl

theorem simLoop_length_all_continue (answers : ℕ → Bool)
    (ha : ∀ i ∈ checkpoints, answers i = true) :
    ∀ (idxs : List ℕ) (coins : List Coin) (r : RandSrc) cf recs rf,
      simLoop answers idxs coins r = some (cf, recs, rf) →
      recs.length = idxs.length := by
  intro idxs
  induction idxs with
  | nil =>
    intro coins r cf recs rf h
    rw [simLoop_nil] at h
    injection h with h
    simp only [Prod.mk.injEq] at h
    obtain ⟨_, h2, _⟩ := h
    rw [← h2]
    rfl
  | cons i rest ih =>
    intro coins r cf recs rf h
    obtain ⟨coins1, tr, r1, htr, hcase⟩ := simLoop_cons h
    rcases hcase with ⟨⟨hmem, hfalse⟩, _⟩ | ⟨_, cf0, recs0, rf0, hloop, hres2⟩
    · rw [ha i hmem] at hfalse
      exact absurd hfalse (by simp)
    · simp only [Prod.mk.injEq] at hres2
      obtain ⟨_, g2, _⟩ := hres2
      subst g2
      simp [ih _ _ _ _ _ hloop]

theorem pairwise_rankRel_fresh (ps : List ℚ) :
    ∀ k, List.Pairwise rankRel (List.enumFrom k (ps.map Coin.init)) := by
  induction ps with
  | nil => intro k; simp [List.enumFrom]
  | cons q t ih =>
    intro k
    show List.Pairwise rankRel
      ((k, Coin.init q) :: List.enumFrom (k + 1) (t.map Coin.init))
    refine List.Pairwise.cons ?_ (ih (k + 1))
    intro b hb
    obtain ⟨h1, _, h3⟩ := List.mem_enumFrom hb
    have hmem : b.2 ∈ t.map Coin.init := by
      rw [h3]
      exact List.getElem_mem _
    obtain ⟨q2, _, hq2⟩ := List.mem_map.mp hmem
    right
    constructor
    · rw [← hq2]
      rfl
    · omega

theorem rank_fresh (p : List ℚ) :
    rank (p.map Coin.init) = (p.map Coin.init).enum :=
  List.Sorted.insertionSort_eq (pairwise_rankRel_fresh p 0)

theorem enumFrom_map_fst {α : Type} :
    ∀ (l : List α) (k : ℕ), (List.enumFrom k l).map Prod.fst = List.range' k l.length := by
  intro l
  induction l with
  | nil => intro k; rfl
  | cons a t ih =>
    intro k
    show k :: (List.enumFrom (k + 1) t).map Prod.fst = List.range' k (t.length + 1)
    rw [ih]
    rfl

theorem enum_map_fst_range {α : Type} (l : List α) :
    (l.enum).map Prod.fst = List.range l.length := by
  rw [List.range_eq_range']
  exact enumFrom_map_fst l 0

theorem potential_init (p : List ℚ) : potential (p.map Coin.init) = 0 := by
  induction p with
  | nil => rfl
  | cons q t ih =>
    rw [List.map_cons, potential_cons, ih]
    simp [Coin.init]

theorem trial_of_runMax {coins : List Coin} {r : RandSrc} {i : ℕ}
    (h : (runMax (drawSamples coins r).1).2 = some i) :
    trial coins r = some (coins.set i ((coins.getD i (Coin.init 0)).update
        (((coins.getD i (Coin.init 0)).toss (drawSamples coins r).2).1)),
      (i, ((coins.getD i (Coin.init 0)).toss (drawSamples coins r).2).1),
      ((coins.getD i (Coin.init 0)).toss (drawSamples coins r).2).2) := by
  show (match (runMax (drawSamples coins r).1).2 with
    | none => none
    | some i =>
      some (coins.set i ((coins.getD i (Coin.init 0)).update
          (((coins.getD i (Coin.init 0)).toss (drawSamples coins r).2).1)),
        (i, ((coins.getD i (Coin.init 0)).toss (drawSamples coins r).2).1),
        ((coins.getD i (Coin.init 0)).toss (drawSamples coins r).2).2)) = some _
  rw [h]

/-- C1: on each trial over a non-empty pool, the selection pass draws
exactly one sample per arm from its posterior (one stream draw each,
`coins.length` in total) and the trial selects the arm whose sampled
value is maximal; when several arms tie at the maximum, the lowest-index
arm is selected (the loop's strict `>` never replaces the bound arm on an
equal sample). -/
theorem selection_max_lowest_index (coins : List Coin) (r : RandSrc)
    (hne : coins ≠ []) (hv : r.Valid) :
    (drawSamples coins r).1.length = coins.length ∧
    (drawSamples coins r).2.stream = r.stream ∧
    (drawSamples coins r).2.pos = r.pos + coins.length ∧
    ∃ i, (runMax (drawSamples coins r).1).2 = some i ∧ i < coins.length ∧
      (∀ j, j < coins.length →
        (drawSamples coins r).1.getD j 0 ≤ (drawSamples coins r).1.getD i 0) ∧
      (∀ j, j < i →
        (drawSamples coins r).1.getD j 0 < (drawSamples coins r).1.getD i 0) ∧
      ∃ res, trial coins r = some res ∧ res.2.1.1 = i := by
  have hlen := drawSamples_length coins r
  have hstr := drawSamples_stream coins r
  have hne2 : (drawSamples coins r).1 ≠ [] := by
    intro hc
    rw [hc] at hlen
    exact hne (List.length_eq_zero.mp hlen.symm)
  obtain ⟨k, hk, h2, _, h4, h5⟩ := runMax_spec _ hne2
    (fun v hv2 => (drawSamples_mem_valid coins r hv v hv2).1)
  refine ⟨hlen, hstr.1, hstr.2, k, h2, hlen ▸ hk, ?_, h5, ?_⟩
  · intro j hj
    exact h4 j (by rw [hlen]; exact hj)
  · exact ⟨_, trial_of_runMax h2, rfl⟩

/-- C1 witness: the selection contract discharged on the one-arm pool
`[Coin.init 1]` with the constant valid stream. -/
theorem selection_max_lowest_index_witness :
    (drawSamples [Coin.init 1] oneRand).1.length = [Coin.init 1].length :=
  (selection_max_lowest_index [Coin.init 1] oneRand (List.cons_ne_nil _ _)
    oneRand_valid).1

/-- C2: `Coin.update` on a success increments `alpha` by exactly 1 leaving
`beta` (and `p`) unchanged; on a failure it increments `beta` by exactly 1
leaving `alpha` unchanged.  It is a total function (always succeeds), and
the only other arm operation touching an arm, `Coin.sample`, returns the
arm unchanged — posterior parameters change only through `update`. -/
theorem update_exact_increment (c : Coin) (x : Bool) (r : RandSrc) :
    (c.update true).alpha = c.alpha + 1 ∧ (c.update true).beta = c.beta ∧
    (c.update false).beta = c.beta + 1 ∧ (c.update false).alpha = c.alpha ∧
    (c.update x).p = c.p ∧ (c.sample r).2.1 = c := by
  refine ⟨?_, ?_, ?_, ?_, update_p c x, rfl⟩ <;> simp [Coin.update, btoi]

/-- C3: after any completed run, each arm of the final pool has
`alpha = 1 + k` and `beta = 1 + m` where `k`/`m` are its recorded
successes/failures, with `k + m` the number of trials in which that arm
was selected; and the total `Σ over arms ((alpha-1) + (beta-1))` equals
the number of trials run — every trial updates exactly one arm exactly
once. -/
theorem posterior_count_invariant (p : List ℚ) (n : ℤ) (answers : ℕ → Bool)
    (r : RandSrc) (cf : List Coin) (recs : List (ℕ × Bool)) (rf : RandSrc)
    (h : simulate p n answers r = some (cf, recs, rf)) :
    (∀ idx, idx < cf.length →
      (cf.getD idx (Coin.init 0)).alpha = 1 + (countRec recs idx true : ℤ) ∧
      (cf.getD idx (Coin.init 0)).beta = 1 + (countRec recs idx false : ℤ) ∧
      countRec recs idx true + countRec recs idx false = countSel recs idx) ∧
    potential cf = recs.length := by
  obtain ⟨hlen, _, hstats⟩ := simLoop_posterior answers _ _ _ _ _ _ h
  constructor
  · intro idx _
    obtain ⟨s1, s2, _⟩ := hstats idx
    refine ⟨?_, ?_, countRec_split recs idx⟩
    · rw [s1, List.getD_map p 0 Coin.init]
      simp [Coin.init]
    · rw [s2, List.getD_map p 0 Coin.init]
      simp [Coin.init]
  · rw [simLoop_potential answers _ _ _ _ _ _ h, potential_init]
    simp

/-- C3 witness: the invariant discharged on the completed one-arm,
one-trial run of `simulate [1] 1` with the constant valid stream. -/
theorem posterior_count_invariant_witness :
    potential [(⟨1, 1, 2⟩ : Coin)] = (([((0 : ℕ), false)] : List (ℕ × Bool)).length : ℤ) :=
  (posterior_count_invariant [1] 1 (fun _ => true) oneRand
    [⟨1, 1, 2⟩] [(0, false)] ⟨fun _ => 1, 2⟩ rfl).2

/-- C4 counterexample: the claim says an out-of-range `true_probability`
raises a configuration error before any trial executes; instead, with
`true_probabilities = [2]` and one trial, the run executes the trial and
updates the arm (its `alpha` becomes 2) with no error of any kind. -/
theorem invalid_prob_runs_trial :
    (simulate [2] 1 (fun _ => true) oneRand).map (fun res => (res.1, res.2.1))
      = some ([⟨2, 2, 1⟩], [(0, true)]) := rfl

/-- C4 (amended): the code performs no configuration validation at all:
every probability list (any length, values outside `[0,1]` included) is
accepted and a run over a non-empty pool completes normally, and a
negative trial count yields an empty completed run (Python's `range`)
rather than an error. -/
theorem no_config_validation (p : List ℚ) (n : ℤ) (answers : ℕ → Bool)
    (r : RandSrc) (hv : r.Valid) :
    (p ≠ [] → (simulate p n answers r).isSome = true) ∧
    (n < 0 → simulate p n answers r = some (p.map Coin.init, [], r)) := by
  constructor
  · intro hne
    apply simLoop_isSome
    · intro hcon
      exact hne (List.map_eq_nil_iff.mp hcon)
    · exact hv
  · intro hneg
    have h0 : n.toNat = 0 := Int.toNat_of_nonpos (le_of_lt hneg)
    unfold simulate
    rw [h0]
    rfl

/-- C4 witness: `trial_count = -1` with an out-of-range probability is
accepted and yields the empty completed run. -/
theorem no_config_validation_witness :
    simulate [2] (-1) (fun _ => true) oneRand = some ([Coin.init 2], [], oneRand) :=
  (no_config_validation [2] (-1) (fun _ => true) oneRand oneRand_valid).2 (by decide)

/-- C5 counterexample: the claim says the driver always executes exactly
`T` trials; with `T = 7` and the `Continue?` prompt at checkpoint index 5
answered `'n'`, the run completes after only 6 executions of the
per-trial protocol. -/
theorem break_shortens_run :
    ((simulate [1] 7 (fun i => decide (i ≠ 5)) oneRand).map
      fun res => res.2.1.length) = some 6 ∧ (6 : ℕ) ≠ 7 := ⟨rfl, by decide⟩

/-- C5 (amended): when every `Continue?` prompt at a checkpoint index
(5, 10, 20, 50, 100, 200, 500, 1000, 2000, 5000, 9999) is answered
affirmatively, a completed run executes the per-trial protocol exactly
`T = n.toNat` times — immediately, with 0 trials, when `n ≤ 0`; answering
`'n'` at a checkpoint index `< T - 1` ends the run early, after that
trial. -/
theorem trials_run_when_prompts_continue (p : List ℚ) (n : ℤ)
    (answers : ℕ → Bool) (r : RandSrc) (cf : List Coin)
    (recs : List (ℕ × Bool)) (rf : RandSrc)
    (ha : ∀ i ∈ checkpoints, answers i = true)
    (h : simulate p n answers r = some (cf, recs, rf)) :
    recs.length = n.toNat := by
  have hl := simLoop_length_all_continue answers ha _ _ _ _ _ _ h
  rwa [List.length_range] at hl

/-- C5 witness: a completed 2-trial run with all prompts affirmative
executes exactly 2 trials. -/
theorem trials_run_witness :
    ([((0 : ℕ), false), (0, false)] : List (ℕ × Bool)).length = (2 : ℤ).toNat :=
  trials_run_when_prompts_continue [1] 2 (fun _ => true) oneRand
    [⟨1, 1, 3⟩] [(0, false), (0, false)] ⟨fun _ => 1, 4⟩ (by decide) rfl

/-- C6: determinism — two runs with equal configurations (probability
list, trial count, prompt answers) and equal random sources (the stream a
fixed seed determines) produce the identical sequence of selected arms,
the identical final ranking, and the identical full result. -/
theorem deterministic_replay (p1 p2 : List ℚ) (n1 n2 : ℤ)
    (a1 a2 : ℕ → Bool) (r1 r2 : RandSrc) (hp : p1 = p2) (hn : n1 = n2)
    (ha : a1 = a2) (hr : r1 = r2) :
    selectedArms (simulate p1 n1 a1 r1) = selectedArms (simulate p2 n2 a2 r2) ∧
    finalRanking (simulate p1 n1 a1 r1) = finalRanking (simulate p2 n2 a2 r2) ∧
    simulate p1 n1 a1 r1 = simulate p2 n2 a2 r2 := by
  subst hp hn ha hr
  exact ⟨rfl, rfl, rfl⟩

/-- C6 witness: replay of the concrete one-arm, one-trial run. -/
theorem deterministic_replay_witness :
    selectedArms (simulate [1] 1 (fun _ => true) oneRand)
        = selectedArms (simulate [1] 1 (fun _ => true) oneRand) ∧
    finalRanking (simulate [1] 1 (fun _ => true) oneRand)
        = finalRanking (simulate [1] 1 (fun _ => true) oneRand) ∧
    simulate [1] 1 (fun _ => true) oneRand
        = simulate [1] 1 (fun _ => true) oneRand :=
  deterministic_replay [1] [1] 1 1 (fun _ => true) (fun _ => true)
    oneRand oneRand rfl rfl rfl rfl

/-- C7: every arm is created with the uniform prior `alpha = 1, beta = 1`;
`update` preserves `alpha ≥ 1 ∧ beta ≥ 1`, `sample` leaves the arm
unchanged, and after any completed run every arm of the final pool still
satisfies `alpha ≥ 1 ∧ beta ≥ 1`. -/
theorem prior_and_positivity (q : ℚ) (c : Coin) (x : Bool) (r : RandSrc)
    (hc : 1 ≤ c.alpha ∧ 1 ≤ c.beta) :
    (Coin.init q).alpha = 1 ∧ (Coin.init q).beta = 1 ∧
    (1 ≤ (c.update x).alpha ∧ 1 ≤ (c.update x).beta) ∧
    (c.sample r).2.1 = c ∧
    ∀ (p : List ℚ) (n : ℤ) (answers : ℕ → Bool) (r0 : RandSrc) cf recs rf,
      simulate p n answers r0 = some (cf, recs, rf) →
      ∀ a ∈ cf, 1 ≤ a.alpha ∧ 1 ≤ a.beta := by
  refine ⟨rfl, rfl, update_bounds c x hc.1 hc.2, rfl, ?_⟩
  intro p n answers r0 cf recs rf h a ha
  refine simLoop_bounds answers _ _ _ _ _ _ h ?_ a ha
  intro c2 hc2
  obtain ⟨q2, _, rfl⟩ := List.mem_map.mp hc2
  exact ⟨le_refl 1, le_refl 1⟩

/-- C7 witness: the invariant discharged on a concrete arm. -/
theorem prior_and_positivity_witness :
    1 ≤ ((Coin.init 0).update true).alpha :=
  ((prior_and_positivity 1 (Coin.init 0) true oneRand (by decide)).2.2.1).1

/-- C8: a run with `trial_count = 0` is a no-op: it completes immediately,
no arm is updated, every arm keeps `alpha = 1, beta = 1` (posterior mean
`1/2`), and the ranking lists all arms tied, in ascending id order. -/
theorem zero_trials_noop (p : List ℚ) (answers : ℕ → Bool) (r : RandSrc) :
    simulate p 0 answers r = some (p.map Coin.init, [], r) ∧
    (∀ c ∈ p.map Coin.init, c.alpha = 1 ∧ c.beta = 1 ∧ c.mean = 1/2) ∧
    rank (p.map Coin.init) = (p.map Coin.init).enum ∧
    (rank (p.map Coin.init)).map Prod.fst = List.range p.length := by
  refine ⟨rfl, ?_, rank_fresh p, ?_⟩
  · intro c hcm
    obtain ⟨q, _, rfl⟩ := List.mem_map.mp hcm
    refine ⟨rfl, rfl, ?_⟩
    show ((1 : ℤ) : ℚ) / (((1 : ℤ) : ℚ) + ((1 : ℤ) : ℚ)) = 1/2
    norm_num
  · rw [rank_fresh p, enum_map_fst_range, List.length_map]

/-- C9: `sample` returns a value in `[0,1]` (the Beta draw, modelled as
the next value of the valid random stream) and is pure with respect to the
arm's state — the arm comes back unchanged; its only side effect is on the
random source, which advances by exactly one position with its stream
untouched. -/
theorem sample_in_unit_pure (c : Coin) (r : RandSrc) (hv : r.Valid) :
    0 ≤ (c.sample r).1 ∧ (c.sample r).1 ≤ 1 ∧ (c.sample r).2.1 = c ∧
    (c.sample r).2.2.stream = r.stream ∧ (c.sample r).2.2.pos = r.pos + 1 := by
  obtain ⟨h1, h2⟩ := hv r.pos
  exact ⟨h1, h2, rfl, rfl, rfl⟩

/-- C9 witness: the sample contract discharged on a concrete arm and the
constant valid stream. -/
theorem sample_in_unit_pure_witness :
    0 ≤ ((Coin.init 1).sample oneRand).1 :=
  (sample_in_unit_pure (Coin.init 1) oneRand oneRand_valid).1

/-- C10: with the constructor's default empty probability list, a run of
at least one trial fails at the first trial's update step: no sample ever
beats the sentinel, so no winning arm is bound (`NameError`, modelled as
`none`); with a non-empty pool and a valid stream every sample lies in
`[0,1]`, hence exceeds the sentinel `-1`, a winner is bound, and the
trial-loop body succeeds. -/
theorem empty_pool_name_error (n : ℤ) (answers : ℕ → Bool) (r : RandSrc)
    (hn : 1 ≤ n) :
    simulate [] n answers r = none ∧
    (runMax (drawSamples [] r).1).2 = none ∧
    ∀ (coins : List Coin) (r2 : RandSrc), coins ≠ [] → r2.Valid →
      (trial coins r2).isSome = true := by
  refine ⟨?_, rfl, fun coins r2 hne hv => trial_isSome coins r2 hne hv⟩
  obtain ⟨k, hk⟩ : ∃ k, n.toNat = k + 1 := ⟨n.toNat - 1, by omega⟩
  unfold simulate
  rw [hk, List.range_succ_eq_map]
  rfl

/-- C10 witness: the empty-pool run of one trial fails. -/
theorem empty_pool_name_error_witness :
    simulate [] 1 (fun _ => true) oneRand = none :=
  (empty_pool_name_error 1 (fun _ => true) oneRand (by decide)).1
